import Mathlib

/-!
Verification of the mining-simulation program (src/mining-simulation.cpp).

The C++ program is shallowly embedded as follows:
* `uint64_t` quantities (block rewards, cumulative supply, per-pool reward
  totals) are modelled as `Nat` with an explicit `% 2 ^ 64` wherever the
  source performs unchecked 64-bit arithmetic that can wrap
  (`moneySupply - totalSupply`, `supply_ += reward`, `rewards_ += reward`).
* `uint_fast32_t` heights are modelled as plain `Nat` (the type's width is
  implementation defined and no claim depends on it wrapping).
* `double` values (hash-power shares, the uniform pivot, statistics samples)
  are modelled as exact rationals `ℚ`; the seeded `std::mt19937` stream of
  uniform draws is abstracted as an arbitrary function `Nat → ℚ` giving the
  pivot consumed by each successive `mineBlock` call.
* the `for` loop of `simulateUntilTailEmission` is modelled by a fuel-indexed
  recursion `simLoop` that returns the partial state when the fuel runs out
  (flag `finished = false`); termination is then a separate theorem stating
  that some fuel suffices.
-/

namespace MiningSim

/-- Modulus of 64-bit unsigned arithmetic. -/
def uint64Mod : Nat := 2 ^ 64

/-- Source constant `moneySupply = UINT64_MAX`. -/
def moneySupply : Nat := 2 ^ 64 - 1

/-- Source constant `tailEmission = 0.6_xmr`; the user-defined literal
evaluates `(0.6 * 1e12) + 0.5` and truncates to `uint64_t`, giving
600000000000 minimal units. -/
def tailEmission : Nat := 600000000000

/-- Wrapping 64-bit subtraction `a - b` of two `uint64_t` values
(both assumed `< 2 ^ 64`). -/
def sub64 (a b : Nat) : Nat := (a + uint64Mod - b) % uint64Mod

/-- Source `getBaseReward`: `(moneySupply - totalSupply) >> 18` in
`uint64_t` arithmetic. -/
def getBaseReward (totalSupply : Nat) : Nat :=
  sub64 moneySupply totalSupply >>> 18

/-- Source `Network::getBlockReward`: the base reward clamped from below by
`tailEmission`.  It reads only the current supply, so it is modelled as a
function of the supply. -/
def getBlockReward (supply : Nat) : Nat :=
  let reward := getBaseReward supply
  if reward < tailEmission then tailEmission else reward

/-! ## Basic arithmetic facts about the reward curve -/

theorem sub64_no_wrap (a b : Nat) (hba : b ≤ a) (ha : a < uint64Mod) :
    sub64 a b = a - b := by
  unfold sub64
  have h1 : a + uint64Mod - b = uint64Mod + (a - b) := by omega
  rw [h1, Nat.add_mod_left]
  exact Nat.mod_eq_of_lt (by omega)

theorem moneySupply_lt : moneySupply < uint64Mod := by
  unfold moneySupply uint64Mod; omega

theorem getBaseReward_eq_div (S : Nat) (hS : S ≤ moneySupply) :
    getBaseReward S = (moneySupply - S) / 2 ^ 18 := by
  unfold getBaseReward
  rw [sub64_no_wrap moneySupply S hS moneySupply_lt, Nat.shiftRight_eq_div_pow]

theorem getBlockReward_eq_max (S : Nat) (hS : S ≤ moneySupply) :
    getBlockReward S = max ((moneySupply - S) / 2 ^ 18) tailEmission := by
  unfold getBlockReward
  rw [getBaseReward_eq_div S hS]
  by_cases h : (moneySupply - S) / 2 ^ 18 < tailEmission
  · rw [if_pos h, Nat.max_eq_right (Nat.le_of_lt h)]
  · rw [if_neg h, Nat.max_eq_left (Nat.le_of_not_lt h)]

theorem tailEmission_le_getBlockReward (S : Nat) :
    tailEmission ≤ getBlockReward S := by
  unfold getBlockReward
  by_cases h : getBaseReward S < tailEmission
  · simp [h]
  · simp [h]
    omega

/-- Claim C2: for all supplies `S` with `0 ≤ S < C` (with `C = moneySupply`
and `F = tailEmission`), the per-block reward is
`max ((C - S) / 2 ^ 18) F` — 64-bit subtraction followed by truncating
division by `2 ^ 18` — hence the reward is always at least `F` and is
non-increasing as the supply increases. -/
theorem getBlockReward_spec (S T : Nat) (hS : S < moneySupply)
    (hT : T < moneySupply) :
    getBlockReward S = max ((moneySupply - S) / 2 ^ 18) tailEmission
      ∧ tailEmission ≤ getBlockReward S
      ∧ (S ≤ T → getBlockReward T ≤ getBlockReward S) := by
  refine ⟨getBlockReward_eq_max S (Nat.le_of_lt hS),
          tailEmission_le_getBlockReward S, fun hST => ?_⟩
  rw [getBlockReward_eq_max S (Nat.le_of_lt hS),
      getBlockReward_eq_max T (Nat.le_of_lt hT)]
  have hsub : moneySupply - T ≤ moneySupply - S := Nat.sub_le_sub_left hST _
  exact max_le_max (Nat.div_le_div_right hsub) le_rfl

/-- Witness for claim C2 at the concrete supplies `S = 1000`, `T = 2000`. -/
theorem getBlockReward_spec_witness :
    (1000 : Nat) < moneySupply ∧ (2000 : Nat) < moneySupply ∧
      (getBlockReward 1000 = max ((moneySupply - 1000) / 2 ^ 18) tailEmission
        ∧ tailEmission ≤ getBlockReward 1000
        ∧ ((1000 : Nat) ≤ 2000 → getBlockReward 2000 ≤ getBlockReward 1000)) :=
  ⟨by decide, by decide, getBlockReward_spec 1000 2000 (by decide) (by decide)⟩

/-- Claim C10: `getBaseReward` is total over every `uint64` supply value:
since `moneySupply = UINT64_MAX = 2 ^ 64 - 1`, the 64-bit subtraction
`moneySupply - S` never wraps for any representable `S`; at the boundary
`S = moneySupply` the base reward is `0` and the block reward is exactly the
floor `tailEmission`. -/
theorem getBaseReward_total_no_wrap (S : Nat) (hS : S < uint64Mod) :
    moneySupply = 2 ^ 64 - 1
      ∧ sub64 moneySupply S = moneySupply - S
      ∧ getBaseReward moneySupply = 0
      ∧ getBlockReward moneySupply = tailEmission := by
  have hle : S ≤ moneySupply := by
    unfold moneySupply; unfold uint64Mod at hS; omega
  exact ⟨rfl, sub64_no_wrap moneySupply S hle moneySupply_lt,
    by decide, by decide⟩

/-- Witness for claim C10 at the concrete supply `S = 123`. -/
theorem getBaseReward_total_no_wrap_witness :
    (123 : Nat) < uint64Mod ∧
      (moneySupply = 2 ^ 64 - 1
        ∧ sub64 moneySupply 123 = moneySupply - 123
        ∧ getBaseReward moneySupply = 0
        ∧ getBlockReward moneySupply = tailEmission) :=
  ⟨by decide, getBaseReward_total_no_wrap 123 (by decide)⟩

/-! ## The statistical accumulator (`StatsSet::printStats`)

The stored samples (`std::vector<double> values_`) are modelled as a
`List ℚ`; the two accumulation loops become left folds in source order and
the final `sqrt` call is `Real.sqrt` applied at the statement level, so that
every definition stays executable. -/

/-- First pass of `StatsSet::printStats`: `sum += val` over all samples. -/
def statsSum (values : List ℚ) : ℚ :=
  values.foldl (fun s v => s + v) 0

/-- Source `mean = sum / values_.size()`. -/
def statsMean (values : List ℚ) : ℚ :=
  statsSum values / (values.length : ℚ)

/-- Second pass of `StatsSet::printStats`:
`varsum += (val - mean) * (val - mean)` over all samples. -/
def statsVarsum (values : List ℚ) : ℚ :=
  values.foldl
    (fun a v => a + (v - statsMean values) * (v - statsMean values)) 0

/-- Source `var = varsum / values_.size() / values_.size()`; the reported
error is `sqrt var`. -/
def statsVar (values : List ℚ) : ℚ :=
  statsVarsum values / (values.length : ℚ) / (values.length : ℚ)

theorem foldl_add_eq (l : List ℚ) : ∀ a : ℚ,
    l.foldl (fun s v => s + v) a = a + l.sum := by
  induction l with
  | nil => intro a; simp
  | cons x xs ih =>
      intro a
      simp only [List.foldl_cons, List.sum_cons, ih (a + x)]
      ring

theorem foldl_sq_nonneg (m : ℚ) (l : List ℚ) : ∀ a : ℚ, 0 ≤ a →
    0 ≤ l.foldl (fun s v => s + (v - m) * (v - m)) a := by
  induction l with
  | nil => intro a ha; simpa using ha
  | cons x xs ih =>
      intro a ha
      exact ih _ (add_nonneg ha (mul_self_nonneg _))

theorem statsVarsum_nonneg (values : List ℚ) : 0 ≤ statsVarsum values :=
  foldl_sq_nonneg _ values 0 le_rfl

/-- Counterexample to claim C1 as stated, at the concrete sample list
`[0, 2]`: the error the code reports is `sqrt (varsum / N / N)`
(here `sqrt (1/2)`), which differs from the claimed
`sqrt (varsum / N) / N` (here `sqrt 1 / 2 = 1/2`). -/
theorem statsError_claim_counterexample :
    Real.sqrt ((statsVar [0, 2] : ℚ) : ℝ)
      ≠ Real.sqrt (((statsVarsum [0, 2] : ℚ) : ℝ) / 2) / 2 := by
  have hvar : (statsVar [0, 2] : ℚ) = 1 / 2 := by
    norm_num [statsVar, statsVarsum, statsMean, statsSum]
  have hvs : (statsVarsum [0, 2] : ℚ) = 2 := by
    norm_num [statsVarsum, statsMean, statsSum]
  rw [hvar, hvs]
  have h2 : ((2 : ℚ) : ℝ) / 2 = 1 := by norm_num
  have h1 : (((1 : ℚ) / 2 : ℚ) : ℝ) = 1 / 2 := by norm_num
  rw [h2, h1, Real.sqrt_one]
  intro h
  have hsq : Real.sqrt (1 / 2) ^ 2 = 1 / 2 :=
    Real.sq_sqrt (by norm_num)
  rw [h] at hsq
  norm_num at hsq

/-- Claim C1 (amended): for every non-empty sample list, the reported mean
is `(Σ samples) / N`, and the reported error `sqrt (varsum / N / N)` equals
`sqrt (varsum / N) / sqrt N` — the standard deviation of the sample set
divided by `√N` (the conventional standard error of the mean), not divided
by `N`. -/
theorem statsReport_spec (values : List ℚ) (hne : values ≠ []) :
    statsMean values = values.sum / (values.length : ℚ)
      ∧ Real.sqrt ((statsVar values : ℚ) : ℝ)
        = Real.sqrt (((statsVarsum values : ℚ) : ℝ) / (values.length : ℝ))
            / Real.sqrt ((values.length : ℝ)) := by
  constructor
  · unfold statsMean statsSum
    rw [foldl_add_eq values 0, zero_add]
  · have hcast : ((statsVar values : ℚ) : ℝ)
        = ((statsVarsum values : ℚ) : ℝ) / (values.length : ℝ)
            / (values.length : ℝ) := by
      unfold statsVar
      push_cast
      ring
    rw [hcast]
    exact Real.sqrt_div
      (div_nonneg (by exact_mod_cast statsVarsum_nonneg values)
        (by positivity)) _

/-- Witness for the amended claim C1 at the concrete sample list `[0, 2]`. -/
theorem statsReport_spec_witness :
    ([0, 2] : List ℚ) ≠ []
      ∧ (statsMean [0, 2] = ([0, 2] : List ℚ).sum / (([0, 2] : List ℚ).length : ℚ)
          ∧ Real.sqrt ((statsVar [0, 2] : ℚ) : ℝ)
            = Real.sqrt (((statsVarsum [0, 2] : ℚ) : ℝ)
                / (([0, 2] : List ℚ).length : ℝ))
                / Real.sqrt ((([0, 2] : List ℚ).length : ℝ))) :=
  ⟨by decide, statsReport_spec [0, 2] (by decide)⟩

/-! ## IEEE-754 view of `printStats` for the zero-sample case

The exact-rational model above cannot express what the C++ program does when
the accumulator is empty: `values_.size() = 0` and the `double` division
`0.0 / 0` produces a NaN.  `FVal` models an IEEE-754 double as either an
exact finite rational (rounding is not modelled), an infinity, or NaN, with
the IEEE special-value propagation rules for the operations `printStats`
uses. -/

inductive FVal where
  | fin : ℚ → FVal
  | posinf : FVal
  | neginf : FVal
  | nan : FVal
deriving DecidableEq

/-- IEEE addition on `FVal` (finite arithmetic kept exact). -/
def FVal.add : FVal → FVal → FVal
  | nan, _ => nan
  | _, nan => nan
  | posinf, neginf => nan
  | neginf, posinf => nan
  | posinf, _ => posinf
  | _, posinf => posinf
  | neginf, _ => neginf
  | _, neginf => neginf
  | fin a, fin b => fin (a + b)

/-- IEEE negation on `FVal`. -/
def FVal.neg : FVal → FVal
  | fin a => fin (-a)
  | posinf => neginf
  | neginf => posinf
  | nan => nan

/-- IEEE subtraction on `FVal`. -/
def FVal.sub (a b : FVal) : FVal := a.add b.neg

/-- IEEE multiplication on `FVal`. -/
def FVal.mul : FVal → FVal → FVal
  | nan, _ => nan
  | _, nan => nan
  | fin a, fin b => fin (a * b)
  | posinf, fin b => if b = 0 then nan else if 0 < b then posinf else neginf
  | fin a, posinf => if a = 0 then nan else if 0 < a then posinf else neginf
  | neginf, fin b => if b = 0 then nan else if 0 < b then neginf else posinf
  | fin a, neginf => if a = 0 then nan else if 0 < a then neginf else posinf
  | posinf, posinf => posinf
  | posinf, neginf => neginf
  | neginf, posinf => neginf
  | neginf, neginf => posinf

/-- IEEE division on `FVal`; in particular `0 / 0` is NaN. -/
def FVal.div : FVal → FVal → FVal
  | nan, _ => nan
  | _, nan => nan
  | fin a, fin b =>
      if b = 0 then (if a = 0 then nan else if 0 < a then posinf else neginf)
      else fin (a / b)
  | fin _, posinf => fin 0
  | fin _, neginf => fin 0
  | posinf, fin b => if 0 ≤ b then posinf else neginf
  | neginf, fin b => if 0 ≤ b then neginf else posinf
  | posinf, posinf => nan
  | posinf, neginf => nan
  | neginf, posinf => nan
  | neginf, neginf => nan

/-- Source `mean = sum / values_.size()` under the IEEE model. -/
def statsMeanF (values : List ℚ) : FVal :=
  (values.foldl (fun s v => s.add (FVal.fin v)) (FVal.fin 0)).div
    (FVal.fin (values.length : ℚ))

/-- Source second pass under the IEEE model. -/
def statsVarsumF (values : List ℚ) : FVal :=
  values.foldl
    (fun a v =>
      a.add (((FVal.fin v).sub (statsMeanF values)).mul
        ((FVal.fin v).sub (statsMeanF values))))
    (FVal.fin 0)

/-- Source `var = varsum / values_.size() / values_.size()` under the IEEE
model; the reported error is its square root (and IEEE `sqrt NaN = NaN`). -/
def statsVarF (values : List ℚ) : FVal :=
  ((statsVarsumF values).div (FVal.fin (values.length : ℚ))).div
    (FVal.fin (values.length : ℚ))

/-- Claim C9: reporting with zero samples evaluates `0.0 / 0`, so both the
mean and the variance (whose square root is the printed error) are NaN — an
undefined-value marker distinct from the finite value `0` — and the report
is therefore never a silent `0 ± 0`. -/
theorem statsReport_empty_nan :
    statsMeanF [] = FVal.nan
      ∧ statsVarF [] = FVal.nan
      ∧ FVal.nan ≠ FVal.fin 0 := by
  refine ⟨?_, ?_, by decide⟩
  · show (FVal.fin 0).div (FVal.fin ((0 : Nat) : ℚ)) = FVal.nan
    norm_num [FVal.div]
  · show ((FVal.fin 0).div (FVal.fin ((0 : Nat) : ℚ))).div
        (FVal.fin ((0 : Nat) : ℚ)) = FVal.nan
    norm_num [FVal.div]

/-! ## Pools, blocks and the award process (`Network::mineBlock`) -/

/-- Source class `Pool`: name, fixed hash-power share, and the running
totals (`rewards_` is a `uint64_t`, `blocks_` a `uint_fast32_t`). -/
structure Pool where
  name : String
  hashrate : ℚ
  rewards : Nat
  blocks : Nat
deriving DecidableEq

/-- Source class `Block`: the pointer `const Pool* minedBy_` is modelled as
the optional index of the winning pool in the network's pool vector. -/
structure Block where
  minedBy : Option Nat
  reward : Nat
  height : Nat
deriving DecidableEq

/-- Source `Pool::addBlock`: `rewards_ += block.getReward(); ++blocks_;`
where `rewards_` is 64-bit. -/
def Pool.addBlock (p : Pool) (b : Block) : Pool :=
  { p with rewards := (p.rewards + b.reward) % uint64Mod,
           blocks := p.blocks + 1 }

/-- Source default constructor `Block::Block()`: the sentinel virtual block
with no miner, reward `getBaseReward(0)` and height `0`. -/
def initialBlock : Block := ⟨none, getBaseReward 0, 0⟩

/-- The pool-selection loop inside `Network::mineBlock`: walk the pool list
accumulating `probe += hashrate` and return the index of the first pool with
`probe >= pivot`. -/
def selectGo (pivot : ℚ) : ℚ → List Pool → Nat → Option Nat
  | _, [], _ => none
  | probe, p :: ps, i =>
      let probe' := probe + p.hashrate
      if pivot ≤ probe' then some i else selectGo pivot probe' ps (i + 1)

/-- The winner of one lottery draw, starting from `probe = 0.0`. -/
def selectWinner (pools : List Pool) (pivot : ℚ) : Option Nat :=
  selectGo pivot 0 pools 0

/-- Sum of the hash-power shares of the first `k` pools. -/
def prefixShare (pools : List Pool) (k : Nat) : ℚ :=
  ((pools.take k).map Pool.hashrate).sum

/-- Replace pool `i` by the result of `addBlock` (the effect of the C++
`pool->addBlock(b)` through the pointer into the vector). -/
def updatePool : List Pool → Nat → Block → List Pool
  | [], _, _ => []
  | p :: ps, 0, b => p.addBlock b :: ps
  | p :: ps, i + 1, b => p :: updatePool ps i b

/-- Source `Network`: the mutable chain state (`rng_` is abstracted away,
the pivot of each draw being passed in explicitly). -/
structure Network where
  height : Nat
  supply : Nat
  pools : List Pool
deriving DecidableEq

/-- Source `Network::mineBlock`, one award step: draw the winner, build the
block at height `height + 1` with reward computed from the current supply,
add the reward to the supply (`uint64_t`, wrapping), and credit the winner
if there is one. -/
def Network.mineBlock (net : Network) (pivot : ℚ) : Block × Network :=
  letI pool := selectWinner net.pools pivot
  letI b : Block := ⟨pool, getBlockReward net.supply, net.height + 1⟩
  letI newSupply := (net.supply + b.reward) % uint64Mod
  letI newPools :=
    match pool with
    | none => net.pools
    | some i => updatePool net.pools i b
  (b, ⟨net.height + 1, newSupply, newPools⟩)

theorem prefixShare_cons (p : Pool) (ps : List Pool) (k : Nat) :
    prefixShare (p :: ps) (k + 1) = p.hashrate + prefixShare ps k := by
  simp [prefixShare]

theorem prefixShare_one (p : Pool) (ps : List Pool) :
    prefixShare (p :: ps) 1 = p.hashrate := by
  simp [prefixShare]

/-- Full characterization of the selection loop, for an arbitrary initial
probe `c` and index offset `i`. -/
theorem selectGo_spec (pivot : ℚ) :
    ∀ (ps : List Pool) (c : ℚ) (i : Nat),
      (∀ w, selectGo pivot c ps i = some w →
        ∃ j, w = i + j ∧ j < ps.length
          ∧ pivot ≤ c + prefixShare ps (j + 1)
          ∧ ∀ k < j, c + prefixShare ps (k + 1) < pivot)
      ∧ (selectGo pivot c ps i = none →
          ∀ j < ps.length, c + prefixShare ps (j + 1) < pivot) := by
  intro ps
  induction ps with
  | nil =>
      intro c i
      constructor
      · intro w hw; simp [selectGo] at hw
      · intro _ j hj; simp at hj
  | cons p ps ih =>
      intro c i
      by_cases hcmp : pivot ≤ c + p.hashrate
      · constructor
        · intro w hw
          simp only [selectGo, if_pos hcmp, Option.some.injEq] at hw
          refine ⟨0, by omega, by simp, ?_, by omega⟩
          rw [prefixShare_one]; exact hcmp
        · intro hn
          simp [selectGo, if_pos hcmp] at hn
      · have hrec : selectGo pivot c (p :: ps) i
            = selectGo pivot (c + p.hashrate) ps (i + 1) := by
          simp [selectGo, if_neg hcmp]
        have hlt : c + p.hashrate < pivot := lt_of_not_le hcmp
        constructor
        · intro w hw
          rw [hrec] at hw
          obtain ⟨j, hwj, hjlen, hge, hmin⟩ := (ih (c + p.hashrate) (i + 1)).1 w hw
          refine ⟨j + 1, by omega, by simpa using Nat.succ_lt_succ hjlen, ?_, ?_⟩
          · rw [prefixShare_cons]
            calc pivot ≤ c + p.hashrate + prefixShare ps (j + 1) := hge
              _ = c + (p.hashrate + prefixShare ps (j + 1)) := by ring
          · intro k hk
            match k with
            | 0 =>
                rw [prefixShare_one]; exact hlt
            | k + 1 =>
                rw [prefixShare_cons]
                have := hmin k (by omega)
                calc c + (p.hashrate + prefixShare ps (k + 1))
                    = c + p.hashrate + prefixShare ps (k + 1) := by ring
                  _ < pivot := this
        · intro hn j hj
          rw [hrec] at hn
          have hnone := (ih (c + p.hashrate) (i + 1)).2 hn
          match j with
          | 0 => rw [prefixShare_one]; exact hlt
          | j + 1 =>
              rw [prefixShare_cons]
              have := hnone j (by simpa using Nat.lt_of_succ_lt_succ hj)
              calc c + (p.hashrate + prefixShare ps (j + 1))
                  = c + p.hashrate + prefixShare ps (j + 1) := by ring
                _ < pivot := this

/-- A returned winner index is a valid index into the pool list. -/
theorem selectWinner_lt (pools : List Pool) (pivot : ℚ) (w : Nat)
    (hw : selectWinner pools pivot = some w) : w < pools.length := by
  obtain ⟨j, hwj, hjlen, -, -⟩ := (selectGo_spec pivot pools 0 0).1 w hw
  omega

theorem mineBlock_fst (net : Network) (pivot : ℚ) :
    (net.mineBlock pivot).1
      = ⟨selectWinner net.pools pivot, getBlockReward net.supply,
          net.height + 1⟩ := rfl

theorem mineBlock_height (net : Network) (pivot : ℚ) :
    (net.mineBlock pivot).2.height = net.height + 1 := rfl

theorem mineBlock_supply (net : Network) (pivot : ℚ) :
    (net.mineBlock pivot).2.supply
      = (net.supply + getBlockReward net.supply) % uint64Mod := rfl

theorem mineBlock_pools_none (net : Network) (pivot : ℚ)
    (h : selectWinner net.pools pivot = none) :
    (net.mineBlock pivot).2.pools = net.pools := by
  simp only [Network.mineBlock, h]

theorem mineBlock_pools_some (net : Network) (pivot : ℚ) (i : Nat)
    (h : selectWinner net.pools pivot = some i) :
    (net.mineBlock pivot).2.pools
      = updatePool net.pools i
          ⟨some i, getBlockReward net.supply, net.height + 1⟩ := by
  simp only [Network.mineBlock, h]

/-- Counterexample to claim C3 as stated: at the valid chain state with
supply `moneySupply - 1` (which is `< C`), the mined block carries the floor
reward and the 64-bit addition `supply_ += reward` wraps, so the supply does
not increase by the block's reward. -/
theorem mineBlock_supply_counterexample :
    letI net : Network := ⟨0, moneySupply - 1, []⟩
    (net.mineBlock (1 / 2)).2.supply
      ≠ net.supply + (net.mineBlock (1 / 2)).1.reward := by
  decide

/-- Claim C3 (amended): for every chain state and participant list such that
the pending addition does not overflow `uint64`
(`supply + reward ≤ UINT64_MAX`), one `mineBlock` call increases the height
by exactly 1 and the supply by exactly the returned block's reward, and that
reward is computed from the supply as it was before the call. -/
theorem mineBlock_step_spec (net : Network) (pivot : ℚ)
    (hov : net.supply + getBlockReward net.supply ≤ moneySupply) :
    (net.mineBlock pivot).2.height = net.height + 1
      ∧ (net.mineBlock pivot).2.supply
          = net.supply + (net.mineBlock pivot).1.reward
      ∧ (net.mineBlock pivot).1.reward = getBlockReward net.supply := by
  refine ⟨mineBlock_height net pivot, ?_, rfl⟩
  rw [mineBlock_supply]
  have hlt : net.supply + getBlockReward net.supply < uint64Mod := by
    have := moneySupply_lt; omega
  rw [Nat.mod_eq_of_lt hlt]
  rfl

/-- Witness for the amended claim C3 at a concrete state. -/
theorem mineBlock_step_spec_witness :
    letI net : Network := ⟨5, 1000, []⟩
    net.supply + getBlockReward net.supply ≤ moneySupply
      ∧ ((net.mineBlock (1 / 2)).2.height = net.height + 1
          ∧ (net.mineBlock (1 / 2)).2.supply
              = net.supply + (net.mineBlock (1 / 2)).1.reward
          ∧ (net.mineBlock (1 / 2)).1.reward = getBlockReward net.supply) :=
  ⟨by decide, mineBlock_step_spec ⟨5, 1000, []⟩ (1 / 2) (by decide)⟩

/-- Claim C4: for every pivot in `[0,1)`, the winner of the award step is
the first pool in list order whose running prefix-sum of shares reaches the
pivot, with `probe = pivot` resolving (inclusively) to the pool being
evaluated; and when no prefix sum reaches the pivot there is no winner and
no pool ledger is updated. -/
theorem mineBlock_winner_spec (net : Network) (pivot : ℚ)
    (h0 : 0 ≤ pivot) (h1 : pivot < 1) :
    (∀ i, (net.mineBlock pivot).1.minedBy = some i
        ↔ i < net.pools.length
            ∧ pivot ≤ prefixShare net.pools (i + 1)
            ∧ ∀ j < i, prefixShare net.pools (j + 1) < pivot)
      ∧ ((∀ j < net.pools.length, prefixShare net.pools (j + 1) < pivot)
          → (net.mineBlock pivot).1.minedBy = none
            ∧ (net.mineBlock pivot).2.pools = net.pools) := by
  have hfst : (net.mineBlock pivot).1.minedBy = selectWinner net.pools pivot :=
    rfl
  have hspec := selectGo_spec pivot net.pools 0 0
  constructor
  · intro i
    rw [hfst]
    constructor
    · intro hw
      obtain ⟨j, hij, hjlen, hge, hmin⟩ := hspec.1 i hw
      have hji : j = i := by omega
      subst hji
      refine ⟨hjlen, by simpa using hge, ?_⟩
      intro k hk
      have := hmin k hk
      simpa using this
    · rintro ⟨hilen, hge, hmin⟩
      cases hsel : selectWinner net.pools pivot with
      | none =>
          exfalso
          have := hspec.2 hsel i hilen
          rw [zero_add] at this
          exact absurd hge (not_le_of_lt this)
      | some w =>
          obtain ⟨j, hwj, hjlen, hge2, hmin2⟩ := hspec.1 w hsel
          have hjw : w = j := by omega
          rw [hjw] at hsel ⊢
          rw [zero_add] at hge2
          rcases Nat.lt_trichotomy j i with hlt | heq | hgt
          · exfalso
            exact absurd hge2 (not_le_of_lt (hmin j hlt))
          · rw [heq]
          · exfalso
            have := hmin2 i hgt
            rw [zero_add] at this
            exact absurd hge (not_le_of_lt this)
  · intro hall
    have hnone : selectWinner net.pools pivot = none := by
      cases hsel : selectWinner net.pools pivot with
      | none => rfl
      | some w =>
          exfalso
          obtain ⟨j, hwj, hjlen, hge2, -⟩ := hspec.1 w hsel
          rw [zero_add] at hge2
          exact absurd hge2 (not_le_of_lt (hall j hjlen))
    exact ⟨by rw [hfst, hnone], mineBlock_pools_none net pivot hnone⟩

/-- Witness for claim C4 at the concrete pools of the program
(shares `0.3` and `0.003`) and pivot `1/5`. -/
theorem mineBlock_winner_spec_witness :
    letI net : Network := ⟨0, 0, [⟨"A", 3 / 10, 0, 0⟩, ⟨"B", 3 / 1000, 0, 0⟩]⟩
    (0 : ℚ) ≤ 1 / 5 ∧ (1 / 5 : ℚ) < 1
      ∧ ((∀ i, (net.mineBlock (1 / 5)).1.minedBy = some i
            ↔ i < net.pools.length
                ∧ 1 / 5 ≤ prefixShare net.pools (i + 1)
                ∧ ∀ j < i, prefixShare net.pools (j + 1) < 1 / 5)
          ∧ ((∀ j < net.pools.length, prefixShare net.pools (j + 1) < 1 / 5)
              → (net.mineBlock (1 / 5)).1.minedBy = none
                ∧ (net.mineBlock (1 / 5)).2.pools = net.pools)) :=
  ⟨by norm_num, by norm_num,
    mineBlock_winner_spec ⟨0, 0, [⟨"A", 3 / 10, 0, 0⟩, ⟨"B", 3 / 1000, 0, 0⟩]⟩
      (1 / 5) (by norm_num) (by norm_num)⟩

/-! ## The simulation run (`simulateUntilTailEmission`)

The source loop

  `for (Block b; b.getReward() > tailEmission; b = net.mineBlock()) {}`

checks the reward of the most recently produced block (initially the default
sentinel block) and mines the next block while it exceeds `tailEmission`.
`simLoop` is that loop with an explicit fuel parameter: it returns the state
reached so far together with the list of blocks mined, and a flag telling
whether the loop condition terminated the loop (`true`) or the fuel ran out
(`false`).  With enough fuel the flag is always `true` (termination
theorem), and partial prefixes of a run are obtained from smaller fuels. -/

/-- Result of (a prefix of) one simulation run. -/
structure RunOut where
  net : Network
  blocks : List Block
  finished : Bool
deriving DecidableEq

/-- The fuel-indexed simulation loop.  `i` counts how many random draws have
been consumed, so `pivots i` is the pivot used by the next `mineBlock`. -/
def simLoop (pivots : Nat → ℚ) : Nat → Nat → Block → Network → RunOut
  | _, 0, b, net =>
      if b.reward ≤ tailEmission then ⟨net, [], true⟩ else ⟨net, [], false⟩
  | i, fuel + 1, b, net =>
      if b.reward ≤ tailEmission then ⟨net, [], true⟩
      else
        letI step := net.mineBlock (pivots i)
        letI out := simLoop pivots (i + 1) fuel step.1 step.2
        ⟨out.net, step.1 :: out.blocks, out.finished⟩

/-- The fresh pools built at the start of `simulateUntilTailEmission` from
the configured (name, hash-power share) pairs: all counters start at 0. -/
def freshPools (cfg : List (String × ℚ)) : List Pool :=
  cfg.map (fun nh => ⟨nh.1, nh.2, 0, 0⟩)

/-- Source `simulateUntilTailEmission`: build fresh pools, start from the
configured height and supply, and loop from the sentinel `initialBlock`. -/
def simRun (pivots : Nat → ℚ) (fuel startingHeight startingSupply : Nat)
    (cfg : List (String × ℚ)) : RunOut :=
  simLoop pivots 0 fuel initialBlock
    ⟨startingHeight, startingSupply, freshPools cfg⟩

/-- Total reward carried by a list of mined blocks. -/
def mintedSum (bs : List Block) : Nat := (bs.map Block.reward).sum

/-- Sum of the accrued rewards of a list of pools. -/
def poolRewardsSum (pools : List Pool) : Nat := (pools.map Pool.rewards).sum

theorem simLoop_stop (pivots : Nat → ℚ) (i fuel : Nat) (b : Block)
    (net : Network) (hb : b.reward ≤ tailEmission) :
    simLoop pivots i fuel b net = ⟨net, [], true⟩ := by
  cases fuel <;> simp [simLoop, hb]

theorem simLoop_zero_go (pivots : Nat → ℚ) (i : Nat) (b : Block)
    (net : Network) (hb : ¬ b.reward ≤ tailEmission) :
    simLoop pivots i 0 b net = ⟨net, [], false⟩ := by
  simp [simLoop, hb]

theorem simLoop_succ_go (pivots : Nat → ℚ) (i fuel : Nat) (b : Block)
    (net : Network) (hb : ¬ b.reward ≤ tailEmission) :
    simLoop pivots i (fuel + 1) b net
      = ⟨(simLoop pivots (i + 1) fuel (net.mineBlock (pivots i)).1
            (net.mineBlock (pivots i)).2).net,
         (net.mineBlock (pivots i)).1
           :: (simLoop pivots (i + 1) fuel (net.mineBlock (pivots i)).1
                 (net.mineBlock (pivots i)).2).blocks,
         (simLoop pivots (i + 1) fuel (net.mineBlock (pivots i)).1
            (net.mineBlock (pivots i)).2).finished⟩ := by
  simp [simLoop, hb]

theorem mintedSum_nil : mintedSum [] = 0 := rfl

theorem mintedSum_cons (b : Block) (bs : List Block) :
    mintedSum (b :: bs) = b.reward + mintedSum bs := by
  simp [mintedSum]

theorem poolRewardsSum_cons (p : Pool) (ps : List Pool) :
    poolRewardsSum (p :: ps) = p.rewards + poolRewardsSum ps := by
  simp [poolRewardsSum]

/-! ### Arithmetic facts driving the supply invariant and termination -/

theorem tailEmission_pos : 0 < tailEmission := by decide

theorem tailEmission_le_moneySupply : tailEmission ≤ moneySupply := by decide

theorem getBaseReward_le_sub (S : Nat) (hS : S ≤ moneySupply) :
    getBaseReward S ≤ moneySupply - S := by
  rw [getBaseReward_eq_div S hS]
  exact Nat.div_le_self _ _

theorem getBlockReward_eq_base_of_gt (S : Nat)
    (h : tailEmission < getBlockReward S) :
    getBlockReward S = getBaseReward S := by
  unfold getBlockReward at h ⊢
  by_cases hc : getBaseReward S < tailEmission
  · rw [if_pos hc] at h; omega
  · rw [if_neg hc]

theorem getBlockReward_le_max (S : Nat) (hS : S ≤ moneySupply) :
    getBlockReward S ≤ max (moneySupply - S) tailEmission := by
  unfold getBlockReward
  by_cases hc : getBaseReward S < tailEmission
  · rw [if_pos hc]; exact le_max_right _ _
  · rw [if_neg hc]
    exact le_trans (getBaseReward_le_sub S hS) (le_max_left _ _)

/-- A step whose reward exceeds the floor keeps the supply at most the
ceiling and in fact leaves a further gap of at least `tailEmission`. -/
theorem step_gap_of_gt (S : Nat) (hS : S ≤ moneySupply)
    (h : tailEmission < getBlockReward S) :
    S + getBlockReward S ≤ moneySupply
      ∧ tailEmission ≤ moneySupply - (S + getBlockReward S) := by
  have hbase := getBlockReward_eq_base_of_gt S h
  have hdiv : getBaseReward S = (moneySupply - S) / 2 ^ 18 :=
    getBaseReward_eq_div S hS
  have hmul : (moneySupply - S) / 2 ^ 18 * 2 ^ 18 ≤ moneySupply - S :=
    Nat.div_mul_le_self _ _
  have hpow : (2 : Nat) ^ 18 = 262144 := by norm_num
  have hF : tailEmission = 600000000000 := rfl
  rw [hbase, hdiv] at h ⊢
  rw [hpow] at hmul ⊢
  rw [hF] at h ⊢
  omega

/-- If the supply still leaves room for one floor reward, the next mined
reward cannot overflow the ceiling. -/
theorem step_no_overflow (S : Nat) (hSF : S + tailEmission ≤ moneySupply) :
    S + getBlockReward S ≤ moneySupply := by
  have hS : S ≤ moneySupply := by omega
  by_cases h : tailEmission < getBlockReward S
  · exact (step_gap_of_gt S hS h).1
  · have : getBlockReward S = tailEmission :=
      le_antisymm (le_of_not_lt h) (tailEmission_le_getBlockReward S)
    omega

/-- Supply bookkeeping along the loop: provided the state either already
meets the stopping condition or leaves room for one floor reward, the final
supply is the exact (unwrapped) sum of the starting supply and all minted
rewards, and every intermediate supply stays at most `moneySupply`. -/
theorem simLoop_supply (pivots : Nat → ℚ) :
    ∀ (fuel i : Nat) (b : Block) (net : Network),
      net.supply ≤ moneySupply →
      (b.reward ≤ tailEmission ∨ net.supply + tailEmission ≤ moneySupply) →
      (simLoop pivots i fuel b net).net.supply
          = net.supply + mintedSum (simLoop pivots i fuel b net).blocks
        ∧ ∀ k, net.supply
              + mintedSum ((simLoop pivots i fuel b net).blocks.take k)
            ≤ moneySupply := by
  intro fuel
  induction fuel with
  | zero =>
      intro i b net hS hor
      by_cases hb : b.reward ≤ tailEmission
      · rw [simLoop_stop pivots i 0 b net hb]
        exact ⟨by simp [mintedSum], fun k => by simp [mintedSum]; omega⟩
      · rw [simLoop_zero_go pivots i b net hb]
        exact ⟨by simp [mintedSum], fun k => by simp [mintedSum]; omega⟩
  | succ fuel ih =>
      intro i b net hS hor
      by_cases hb : b.reward ≤ tailEmission
      · rw [simLoop_stop pivots i (fuel + 1) b net hb]
        exact ⟨by simp [mintedSum], fun k => by simp [mintedSum]; omega⟩
      · have hSF : net.supply + tailEmission ≤ moneySupply := by
          rcases hor with h | h
          · exact absurd h hb
          · exact h
        rw [simLoop_succ_go pivots i fuel b net hb]
        have hr : (net.mineBlock (pivots i)).1.reward
            = getBlockReward net.supply := rfl
        have hno : net.supply + getBlockReward net.supply ≤ moneySupply :=
          step_no_overflow net.supply hSF
        have hsup : (net.mineBlock (pivots i)).2.supply
            = net.supply + getBlockReward net.supply := by
          rw [mineBlock_supply]
          exact Nat.mod_eq_of_lt (lt_of_le_of_lt hno moneySupply_lt)
        have hS2 : (net.mineBlock (pivots i)).2.supply ≤ moneySupply := by
          rw [hsup]; exact hno
        have hor2 : (net.mineBlock (pivots i)).1.reward ≤ tailEmission
            ∨ (net.mineBlock (pivots i)).2.supply + tailEmission
                ≤ moneySupply := by
          by_cases hgt : tailEmission < getBlockReward net.supply
          · right
            rw [hsup]
            have := (step_gap_of_gt net.supply (by omega) hgt).2
            omega
          · left
            rw [hr]
            exact le_of_not_lt hgt
        obtain ⟨ihsup, ihpre⟩ :=
          ih (i + 1) (net.mineBlock (pivots i)).1 (net.mineBlock (pivots i)).2
            hS2 hor2
        constructor
        · simp only [mintedSum_cons]
          rw [ihsup, hsup, hr]
          omega
        · intro k
          match k with
          | 0 => simp [mintedSum]; omega
          | k + 1 =>
              simp only [List.take_succ_cons, mintedSum_cons]
              have hkk := ihpre k
              rw [hsup] at hkk
              rw [hr]
              omega

/-- Counterexample to claim C7 as stated: starting a run from the valid
supply `moneySupply - 1 < C` (with no tracked pools), the run completes,
the one minted reward pushes the ideal supply strictly past the ceiling
`moneySupply` — the unchecked `uint64` addition overflows — and the stored
(wrapped) supply is not the starting supply plus the minted rewards. -/
theorem simRun_supply_overflow_counterexample :
    letI out := simRun (fun _ => 1 / 2) 2 0 (moneySupply - 1) []
    moneySupply - 1 < moneySupply
      ∧ out.finished = true
      ∧ moneySupply < moneySupply - 1 + mintedSum out.blocks
      ∧ out.net.supply ≠ moneySupply - 1 + mintedSum out.blocks := by
  decide

/-- Claim C7 (amended): throughout every run whose starting supply leaves
room for at least one floor reward (`S₀ + F ≤ C`), the cumulative supply
never exceeds the ceiling `moneySupply` used by the reward curve — in
particular no `supply_ += reward` addition overflows `uint64`, so the final
supply equals the starting supply plus every minted reward exactly — with no
clamping anywhere in the chain state. -/
theorem simRun_supply_invariant (pivots : Nat → ℚ)
    (fuel startingHeight startingSupply : Nat) (cfg : List (String × ℚ))
    (hs : startingSupply + tailEmission ≤ moneySupply) :
    (simRun pivots fuel startingHeight startingSupply cfg).net.supply
        = startingSupply
            + mintedSum (simRun pivots fuel startingHeight startingSupply
                cfg).blocks
      ∧ ∀ k, startingSupply
            + mintedSum ((simRun pivots fuel startingHeight startingSupply
                cfg).blocks.take k)
          ≤ moneySupply := by
  refine simLoop_supply pivots fuel 0 initialBlock
    ⟨startingHeight, startingSupply, freshPools cfg⟩ ?_ (Or.inr hs)
  show startingSupply ≤ moneySupply
  have := tailEmission_pos
  omega

/-- Witness for the amended claim C7 at a concrete configuration. -/
theorem simRun_supply_invariant_witness :
    (0 : Nat) + tailEmission ≤ moneySupply
      ∧ ((simRun (fun _ => 1 / 2) 1 0 0 []).net.supply
            = 0 + mintedSum (simRun (fun _ => 1 / 2) 1 0 0 []).blocks
          ∧ ∀ k, 0 + mintedSum ((simRun (fun _ => 1 / 2) 1 0 0 []).blocks.take k)
              ≤ moneySupply) :=
  ⟨by decide, simRun_supply_invariant (fun _ => 1 / 2) 1 0 0 [] (by decide)⟩

/-- With fuel exceeding the remaining headroom `moneySupply - supply`, the
loop always reaches the stopping condition: every mined block except
possibly the last strictly shrinks the headroom. -/
theorem simLoop_terminates (pivots : Nat → ℚ) :
    ∀ (fuel i : Nat) (b : Block) (net : Network),
      net.supply ≤ moneySupply →
      moneySupply - net.supply < fuel →
      (simLoop pivots i fuel b net).finished = true := by
  intro fuel
  induction fuel with
  | zero => intro i b net hS hlt; omega
  | succ fuel ih =>
      intro i b net hS hlt
      by_cases hb : b.reward ≤ tailEmission
      · rw [simLoop_stop pivots i (fuel + 1) b net hb]
      · rw [simLoop_succ_go pivots i fuel b net hb]
        by_cases hr : (net.mineBlock (pivots i)).1.reward ≤ tailEmission
        · rw [simLoop_stop pivots (i + 1) fuel _ _ hr]
        · have hgt : tailEmission < getBlockReward net.supply :=
            lt_of_not_le hr
          have hgap := step_gap_of_gt net.supply hS hgt
          have hsup : (net.mineBlock (pivots i)).2.supply
              = net.supply + getBlockReward net.supply := by
            rw [mineBlock_supply]
            exact Nat.mod_eq_of_lt (lt_of_le_of_lt hgap.1 moneySupply_lt)
          have hS2 : (net.mineBlock (pivots i)).2.supply ≤ moneySupply := by
            rw [hsup]; exact hgap.1
          have hlt2 : moneySupply - (net.mineBlock (pivots i)).2.supply
              < fuel := by
            rw [hsup]
            have hpos := tailEmission_pos
            omega
          exact ih (i + 1) _ _ hS2 hlt2

/-- Claim C6: for every pivot stream and every valid starting height and
supply, the run terminates after finitely many mined blocks, given that the
floor reward is strictly positive: some finite fuel makes the loop reach its
stopping condition. -/
theorem simRun_terminates (pivots : Nat → ℚ)
    (startingHeight startingSupply : Nat) (cfg : List (String × ℚ))
    (hs : startingSupply ≤ moneySupply) (hF : 0 < tailEmission) :
    ∃ fuel, (simRun pivots fuel startingHeight startingSupply cfg).finished
        = true := by
  refine ⟨moneySupply - startingSupply + 1, ?_⟩
  refine simLoop_terminates pivots (moneySupply - startingSupply + 1) 0
    initialBlock ⟨startingHeight, startingSupply, freshPools cfg⟩ hs ?_
  show moneySupply - startingSupply < moneySupply - startingSupply + 1
  omega

/-- Witness for claim C6 at a concrete configuration. -/
theorem simRun_terminates_witness :
    (0 : Nat) ≤ moneySupply ∧ 0 < tailEmission
      ∧ ∃ fuel, (simRun (fun _ => 1 / 2) fuel 0 0 []).finished = true :=
  ⟨by decide, by decide,
    simRun_terminates (fun _ => 1 / 2) 0 0 [] (by decide) (by decide)⟩

/-- Trace shape of a completed loop started from a block that beats the
floor: at least one block is mined, the last mined block has reward at most
`tailEmission`, and every earlier one exceeds it. -/
theorem simLoop_trace (pivots : Nat → ℚ) :
    ∀ (fuel i : Nat) (b : Block) (net : Network),
      (simLoop pivots i fuel b net).finished = true →
      tailEmission < b.reward →
      ∃ bs bl, (simLoop pivots i fuel b net).blocks = bs ++ [bl]
        ∧ bl.reward ≤ tailEmission
        ∧ ∀ b' ∈ bs, tailEmission < b'.reward := by
  intro fuel
  induction fuel with
  | zero =>
      intro i b net hfin hb
      rw [simLoop_zero_go pivots i b net (not_le_of_lt hb)] at hfin
      simp at hfin
  | succ fuel ih =>
      intro i b net hfin hb
      have hb' : ¬ b.reward ≤ tailEmission := not_le_of_lt hb
      rw [simLoop_succ_go pivots i fuel b net hb'] at hfin ⊢
      by_cases hr : (net.mineBlock (pivots i)).1.reward ≤ tailEmission
      · refine ⟨[], (net.mineBlock (pivots i)).1, ?_, hr, by simp⟩
        rw [simLoop_stop pivots (i + 1) fuel _ _ hr]
        simp
      · obtain ⟨bs, bl, hblocks, hbl, hall⟩ :=
          ih (i + 1) (net.mineBlock (pivots i)).1 (net.mineBlock (pivots i)).2
            hfin (lt_of_not_le hr)
        refine ⟨(net.mineBlock (pivots i)).1 :: bs, bl, ?_, hbl, ?_⟩
        · simp [hblocks]
        · intro b' hb'
          rcases List.mem_cons.1 hb' with h | h
          · rw [h]; exact lt_of_not_le hr
          · exact hall b' h

/-- Claim C5: a run checks the reward of the most recently produced block
before mining the next; the very first check uses the sentinel virtual block
whose reward is the reward curve at zero supply (which exceeds the floor, so
at least one real block is always mined), and a completed run stops at the
first mined block whose reward is at most `tailEmission`: that block is the
last of the trace and the only one at or below the floor. -/
theorem simRun_stops_at_first_tail_block (pivots : Nat → ℚ)
    (fuel startingHeight startingSupply : Nat) (cfg : List (String × ℚ))
    (hfin : (simRun pivots fuel startingHeight startingSupply cfg).finished
        = true) :
    initialBlock.reward = getBaseReward 0
      ∧ initialBlock.reward = getBlockReward 0
      ∧ tailEmission < initialBlock.reward
      ∧ ∃ bs bl,
          (simRun pivots fuel startingHeight startingSupply cfg).blocks
              = bs ++ [bl]
            ∧ bl.reward ≤ tailEmission
            ∧ ∀ b' ∈ bs, tailEmission < b'.reward :=
  ⟨rfl, by decide, by decide,
    simLoop_trace pivots fuel 0 initialBlock
      ⟨startingHeight, startingSupply, freshPools cfg⟩ hfin (by decide)⟩

/-- Witness for claim C5 at a concrete completed run. -/
theorem simRun_stops_at_first_tail_block_witness :
    (simRun (fun _ => 1 / 2) 2 0 moneySupply []).finished = true
      ∧ (initialBlock.reward = getBaseReward 0
          ∧ initialBlock.reward = getBlockReward 0
          ∧ tailEmission < initialBlock.reward
          ∧ ∃ bs bl,
              (simRun (fun _ => 1 / 2) 2 0 moneySupply []).blocks = bs ++ [bl]
                ∧ bl.reward ≤ tailEmission
                ∧ ∀ b' ∈ bs, tailEmission < b'.reward) :=
  ⟨by decide,
    simRun_stops_at_first_tail_block (fun _ => 1 / 2) 2 0 moneySupply []
      (by decide)⟩

/-! ### Conservation of rewards (claim C8) -/

theorem freshPools_rewards_zero (cfg : List (String × ℚ)) :
    ∀ p ∈ freshPools cfg, p.rewards = 0 := by
  induction cfg with
  | nil => intro p hp; simp [freshPools] at hp
  | cons nh cfg ih =>
      intro p hp
      rcases List.mem_cons.1 hp with h | h
      · rw [h]
      · exact ih p h

theorem poolRewardsSum_freshPools (cfg : List (String × ℚ)) :
    poolRewardsSum (freshPools cfg) = 0 := by
  induction cfg with
  | nil => rfl
  | cons nh cfg ih => simp [freshPools, poolRewardsSum] at ih ⊢; exact ih

theorem getElem?_mem_pools :
    ∀ (l : List Pool) (j : Nat) (q : Pool), l[j]? = some q → q ∈ l := by
  intro l
  induction l with
  | nil => intro j q hq; simp at hq
  | cons p ps ih =>
      intro j q hq
      match j with
      | 0 =>
          rw [List.getElem?_cons_zero, Option.some.injEq] at hq
          rw [← hq]; exact List.mem_cons_self p ps
      | j + 1 =>
          rw [List.getElem?_cons_succ] at hq
          exact List.mem_cons_of_mem p (ih j q hq)

/-- Crediting pool `j` adds exactly the block's reward to the total accrued
rewards, provided the pool's own 64-bit counter does not wrap. -/
theorem updatePool_sum :
    ∀ (pools : List Pool) (j : Nat) (b : Block) (q : Pool),
      pools[j]? = some q → q.rewards + b.reward < uint64Mod →
      poolRewardsSum (updatePool pools j b)
        = poolRewardsSum pools + b.reward := by
  intro pools
  induction pools with
  | nil => intro j b q hq; simp at hq
  | cons p ps ih =>
      intro j b q hq hwrap
      match j with
      | 0 =>
          rw [List.getElem?_cons_zero, Option.some.injEq] at hq
          rw [← hq] at hwrap
          show poolRewardsSum (Pool.addBlock p b :: ps) = _
          rw [poolRewardsSum_cons, poolRewardsSum_cons]
          have hab : (Pool.addBlock p b).rewards
              = (p.rewards + b.reward) % uint64Mod := rfl
          rw [hab, Nat.mod_eq_of_lt hwrap]
          omega
      | j + 1 =>
          rw [List.getElem?_cons_succ] at hq
          show poolRewardsSum (p :: updatePool ps j b) = _
          rw [poolRewardsSum_cons, poolRewardsSum_cons, ih j b q hq hwrap]
          omega

theorem updatePool_mem :
    ∀ (pools : List Pool) (j : Nat) (b : Block) (p : Pool),
      p ∈ updatePool pools j b →
      p ∈ pools ∨ ∃ q ∈ pools, p = Pool.addBlock q b := by
  intro pools
  induction pools with
  | nil => intro j b p hp; simp [updatePool] at hp
  | cons p0 ps ih =>
      intro j b p hp
      match j with
      | 0 =>
          rcases List.mem_cons.1 hp with h | h
          · exact Or.inr ⟨p0, List.mem_cons_self p0 ps, h⟩
          · exact Or.inl (List.mem_cons_of_mem p0 h)
      | j + 1 =>
          rcases List.mem_cons.1 hp with h | h
          · exact Or.inl (by rw [h]; exact List.mem_cons_self p0 ps)
          · rcases ih j b p h with h2 | ⟨q, hq, hpq⟩
            · exact Or.inl (List.mem_cons_of_mem p0 h2)
            · exact Or.inr ⟨q, List.mem_cons_of_mem p0 hq, hpq⟩

/-- Conservation along the loop: under the ledger invariant that every
pool's accrued rewards plus the largest possible remaining emission fits
under `moneySupply`, the accrued totals grow by exactly the reward of each
block that has a winner, and by nothing for residual blocks. -/
theorem simLoop_conservation (pivots : Nat → ℚ) :
    ∀ (fuel i : Nat) (b : Block) (net : Network),
      net.supply ≤ moneySupply →
      (∀ p ∈ net.pools,
        p.rewards + max (moneySupply - net.supply) tailEmission
          ≤ moneySupply) →
      poolRewardsSum (simLoop pivots i fuel b net).net.pools
          ≤ poolRewardsSum net.pools
            + mintedSum (simLoop pivots i fuel b net).blocks
        ∧ ((∀ b' ∈ (simLoop pivots i fuel b net).blocks, b'.minedBy ≠ none) →
            poolRewardsSum (simLoop pivots i fuel b net).net.pools
              = poolRewardsSum net.pools
                + mintedSum (simLoop pivots i fuel b net).blocks) := by
  intro fuel
  induction fuel with
  | zero =>
      intro i b net hS hinv
      by_cases hb : b.reward ≤ tailEmission
      · rw [simLoop_stop pivots i 0 b net hb]
        exact ⟨by simp [mintedSum], fun _ => by simp [mintedSum]⟩
      · rw [simLoop_zero_go pivots i b net hb]
        exact ⟨by simp [mintedSum], fun _ => by simp [mintedSum]⟩
  | succ fuel ih =>
      intro i b net hS hinv
      by_cases hb : b.reward ≤ tailEmission
      · rw [simLoop_stop pivots i (fuel + 1) b net hb]
        exact ⟨by simp [mintedSum], fun _ => by simp [mintedSum]⟩
      · rw [simLoop_succ_go pivots i fuel b net hb]
        have hr : (net.mineBlock (pivots i)).1.reward
            = getBlockReward net.supply := rfl
        have hmb : (net.mineBlock (pivots i)).1.minedBy
            = selectWinner net.pools (pivots i) := rfl
        have hrmax : getBlockReward net.supply
            ≤ max (moneySupply - net.supply) tailEmission :=
          getBlockReward_le_max net.supply hS
        by_cases hr2 : (net.mineBlock (pivots i)).1.reward ≤ tailEmission
        · -- the recursion stops right after this block
          rw [simLoop_stop pivots (i + 1) fuel _ _ hr2]
          cases hw : selectWinner net.pools (pivots i) with
          | none =>
              have hpools := mineBlock_pools_none net (pivots i) hw
              simp only [hpools, mintedSum_cons, mintedSum_nil]
              refine ⟨by omega, fun hall => ?_⟩
              exfalso
              refine hall (net.mineBlock (pivots i)).1 ?_ (by rw [hmb, hw])
              exact List.mem_cons_self _ _
          | some j =>
              have hpools := mineBlock_pools_some net (pivots i) j hw
              have hjlen : j < net.pools.length :=
                selectWinner_lt net.pools (pivots i) j hw
              have hget : net.pools[j]? = some net.pools[j] :=
                List.getElem?_eq_getElem hjlen
              have hqmem : net.pools[j] ∈ net.pools := List.getElem_mem hjlen
              have hnowrap : net.pools[j].rewards
                  + (⟨some j, getBlockReward net.supply,
                      net.height + 1⟩ : Block).reward < uint64Mod := by
                have := hinv net.pools[j] hqmem
                have := moneySupply_lt
                show net.pools[j].rewards + getBlockReward net.supply
                    < uint64Mod
                omega
              have hsum := updatePool_sum net.pools j
                ⟨some j, getBlockReward net.supply, net.height + 1⟩
                net.pools[j] hget hnowrap
              simp only [hpools, mintedSum_cons, mintedSum_nil, hsum, hr]
              exact ⟨by omega, fun _ => by omega⟩
        · -- the loop continues: the reward beat the floor
          have hgt : tailEmission < getBlockReward net.supply := by
            rw [hr] at hr2; exact lt_of_not_le hr2
          have hgap := step_gap_of_gt net.supply hS hgt
          have hsup : (net.mineBlock (pivots i)).2.supply
              = net.supply + getBlockReward net.supply := by
            rw [mineBlock_supply]
            exact Nat.mod_eq_of_lt (lt_of_le_of_lt hgap.1 moneySupply_lt)
          have hS2 : (net.mineBlock (pivots i)).2.supply ≤ moneySupply := by
            rw [hsup]; exact hgap.1
          have hrle : getBlockReward net.supply ≤ moneySupply - net.supply :=
            le_trans (le_of_eq (getBlockReward_eq_base_of_gt net.supply hgt))
              (getBaseReward_le_sub net.supply hS)
          have hmax2 : max (moneySupply - (net.mineBlock (pivots i)).2.supply)
              tailEmission
              = moneySupply - (net.supply + getBlockReward net.supply) := by
            rw [hsup]
            exact max_eq_left hgap.2
          cases hw : selectWinner net.pools (pivots i) with
          | none =>
              have hpools := mineBlock_pools_none net (pivots i) hw
              have hinv2 : ∀ p ∈ (net.mineBlock (pivots i)).2.pools,
                  p.rewards
                      + max (moneySupply - (net.mineBlock (pivots i)).2.supply)
                          tailEmission
                    ≤ moneySupply := by
                intro p hp
                rw [hpools] at hp
                have h1 := hinv p hp
                rw [hmax2]
                have h2 : moneySupply - (net.supply + getBlockReward net.supply)
                    ≤ max (moneySupply - net.supply) tailEmission := by
                  refine le_trans ?_ (le_max_left _ _)
                  omega
                omega
              obtain ⟨ihle, iheq⟩ := ih (i + 1) (net.mineBlock (pivots i)).1
                (net.mineBlock (pivots i)).2 hS2 hinv2
              rw [hpools] at ihle iheq
              simp only [mintedSum_cons]
              refine ⟨by omega, fun hall => ?_⟩
              exfalso
              refine hall (net.mineBlock (pivots i)).1 ?_ (by rw [hmb, hw])
              exact List.mem_cons_self _ _
          | some j =>
              have hpools := mineBlock_pools_some net (pivots i) j hw
              have hjlen : j < net.pools.length :=
                selectWinner_lt net.pools (pivots i) j hw
              have hget : net.pools[j]? = some net.pools[j] :=
                List.getElem?_eq_getElem hjlen
              have hqmem : net.pools[j] ∈ net.pools := List.getElem_mem hjlen
              have hnowrap : net.pools[j].rewards
                  + (⟨some j, getBlockReward net.supply,
                      net.height + 1⟩ : Block).reward < uint64Mod := by
                have := hinv net.pools[j] hqmem
                have := moneySupply_lt
                show net.pools[j].rewards + getBlockReward net.supply
                    < uint64Mod
                omega
              have hsum := updatePool_sum net.pools j
                ⟨some j, getBlockReward net.supply, net.height + 1⟩
                net.pools[j] hget hnowrap
              have hbr : (⟨some j, getBlockReward net.supply,
                  net.height + 1⟩ : Block).reward = getBlockReward net.supply :=
                rfl
              rw [hbr] at hsum
              have hinv2 : ∀ p ∈ (net.mineBlock (pivots i)).2.pools,
                  p.rewards
                      + max (moneySupply - (net.mineBlock (pivots i)).2.supply)
                          tailEmission
                    ≤ moneySupply := by
                intro p hp
                rw [hpools] at hp
                rw [hmax2]
                rcases updatePool_mem net.pools j _ p hp with h | ⟨q, hq, hpq⟩
                · have h1 := hinv p h
                  have h2 : moneySupply
                        - (net.supply + getBlockReward net.supply)
                      ≤ max (moneySupply - net.supply) tailEmission := by
                    refine le_trans ?_ (le_max_left _ _)
                    omega
                  omega
                · have h1 := hinv q hq
                  have h2 : p.rewards
                      ≤ q.rewards + getBlockReward net.supply := by
                    rw [hpq]
                    exact Nat.mod_le _ _
                  have h3 : moneySupply - net.supply
                      ≤ max (moneySupply - net.supply) tailEmission :=
                    le_max_left _ _
                  omega
              obtain ⟨ihle, iheq⟩ := ih (i + 1) (net.mineBlock (pivots i)).1
                (net.mineBlock (pivots i)).2 hS2 hinv2
              rw [hpools, hsum] at ihle iheq
              simp only [mintedSum_cons, hr]
              constructor
              · omega
              · intro hall
                have htail : ∀ b' ∈ (simLoop pivots (i + 1) fuel
                    (net.mineBlock (pivots i)).1
                    (net.mineBlock (pivots i)).2).blocks,
                    b'.minedBy ≠ none := by
                  intro b' hb'
                  exact hall b' (List.mem_cons_of_mem _ hb')
                have := iheq htail
                omega

/-- Claim C8: at every point of a run (any fuel, hence any prefix of the
run), the sum of the tracked pools' accrued rewards is at most the total
reward minted so far, with equality whenever every minted block had a winner
— so equality can only fail through blocks awarded to the residual share. -/
theorem simRun_reward_conservation (pivots : Nat → ℚ)
    (fuel startingHeight startingSupply : Nat) (cfg : List (String × ℚ))
    (hs : startingSupply ≤ moneySupply) :
    poolRewardsSum (simRun pivots fuel startingHeight startingSupply
          cfg).net.pools
        ≤ mintedSum (simRun pivots fuel startingHeight startingSupply
            cfg).blocks
      ∧ ((∀ b ∈ (simRun pivots fuel startingHeight startingSupply cfg).blocks,
            b.minedBy ≠ none) →
          poolRewardsSum (simRun pivots fuel startingHeight startingSupply
              cfg).net.pools
            = mintedSum (simRun pivots fuel startingHeight startingSupply
                cfg).blocks) := by
  have hinv : ∀ p ∈ freshPools cfg,
      p.rewards + max (moneySupply - startingSupply) tailEmission
        ≤ moneySupply := by
    intro p hp
    rw [freshPools_rewards_zero cfg p hp, zero_add]
    exact max_le (Nat.sub_le _ _) tailEmission_le_moneySupply
  have h := simLoop_conservation pivots fuel 0 initialBlock
    ⟨startingHeight, startingSupply, freshPools cfg⟩ hs hinv
  rw [poolRewardsSum_freshPools cfg, zero_add] at h
  exact h

/-- Witness for claim C8 at a concrete run. -/
theorem simRun_reward_conservation_witness :
    (0 : Nat) ≤ moneySupply
      ∧ (poolRewardsSum (simRun (fun _ => 1 / 2) 1 0 0
            [("A", 3 / 10)]).net.pools
          ≤ mintedSum (simRun (fun _ => 1 / 2) 1 0 0 [("A", 3 / 10)]).blocks
        ∧ ((∀ b ∈ (simRun (fun _ => 1 / 2) 1 0 0 [("A", 3 / 10)]).blocks,
              b.minedBy ≠ none) →
            poolRewardsSum (simRun (fun _ => 1 / 2) 1 0 0
                [("A", 3 / 10)]).net.pools
              = mintedSum (simRun (fun _ => 1 / 2) 1 0 0
                  [("A", 3 / 10)]).blocks)) :=
  ⟨by decide,
    simRun_reward_conservation (fun _ => 1 / 2) 1 0 0 [("A", 3 / 10)]
      (by decide)⟩

end MiningSim
